import Mathlib

/-!
Verification of the mosaic-generation core (color quantizer, pixel-map builder,
quantization offload coordinator, bounded-concurrency asset loader, progressive
row renderer) against its implementation.

Shallow embedding conventions:
* JavaScript numbers in the quantizer are read with exact (real/rational)
  arithmetic; since all quantities are non-negative integers divided with
  floors, each reduction step is Nat floor division.
* The asynchronous callback code of the asset loader and the row renderer is
  embedded as an explicit state-transition system.  The program variables of
  downloadLimitedItems (complete, aborted, results, queued, i) are state
  fields; additionally the state records the observable effects: the list of
  item indices handed to the iterator (started), the set of started-but-not-yet
  completed indices (inflight), and the invocations that reach the
  once-wrapped final callback (cbCalled is the wrapper flag f.called, cbCalls
  the calls that got through).  A completion of an in-flight fetch is an
  external event; runs are quantified over all event interleavings.
-/

set_option maxRecDepth 40000
set_option maxHeartbeats 1000000

namespace MosaicSpec

/-- Exact-arithmetic reading of the channel reduction performed inline in
MosaicWorker.prototype.rgbToHex: Math.floor((Math.floor(c / 255 * colors) / colors) * 255).
For naturals this is ((c * n / 255) * 255) / n with Nat floor division. -/
def quantizeChannel (c n : Nat) : Nat := c * n / 255 * 255 / n

/-- MosaicWorker.prototype.convertToHex: component.toString(16), left-padded
with "0" when it is a single digit.  Number.prototype.toString(16) on a
non-negative integer yields lowercase hex digits, modeled by Nat.toDigits 16. -/
def convertToHex (component : Nat) : String :=
  let hex := String.mk (Nat.toDigits 16 component)
  if hex.length = 1 then "0" ++ hex else hex

/-- MosaicWorker.prototype.rgbToHex: reduce each channel, then concatenate the
three two-digit hex encodings in R,G,B order. -/
def rgbToHex (r g b colors : Nat) : String :=
  convertToHex (quantizeChannel r colors) ++
  convertToHex (quantizeChannel g colors) ++
  convertToHex (quantizeChannel b colors)

/-- Set of distinct reduced values one channel can take when the input
component ranges over [0, 255]. -/
def channelValues (n : Nat) : Finset Nat :=
  (Finset.range 256).image (fun c => quantizeChannel c n)

/-- Character class of lowercase hexadecimal digits. -/
def isLowerHexDigit (ch : Char) : Bool :=
  ('0' ≤ ch && ch ≤ '9') || ('a' ≤ ch && ch ≤ 'f')

/-- MosaicWorker.prototype.getColorMap: walk the flat RGBA pixel buffer in
strides of 4 (r, g, b, alpha; the alpha byte is skipped) and push one palette
key per pixel.  An ImageData buffer always has length 4 * width * height, so
the chunked recursion coincides with the indexed for-loop of the source. -/
def workerGetColorMap : List Nat → Nat → List String
  | r :: g :: b :: _a :: rest, colors => rgbToHex r g b colors :: workerGetColorMap rest colors
  | _, _ => []

/-- JavaScript runtime error raised by the fallback branch. -/
inductive JsError where
  | typeError
deriving DecidableEq

/-- Mosaic.prototype.getColorMap.  When window.Worker exists, the pixel buffer
and palette size are posted to the worker, whose onmessage handler runs
MosaicWorker.getColorMap and posts the key list back: the round trip returns
that list.  Otherwise the code executes

  var MosaicWorker = new MosaicWorker()

inside the else branch: the var declaration hoists a local binding named
MosaicWorker which shadows any outer one and is still undefined when the
constructor call is evaluated (the worker script js/workers/index.js is not
loaded on the main thread in any case), so new MosaicWorker() throws a
TypeError before any quantization happens.  The fallback therefore never
produces a color map. -/
def getColorMapMain (hasWorker : Bool) (data : List Nat) (colors : Nat) :
    Except JsError (List String) :=
  if hasWorker then Except.ok (workerGetColorMap data colors)
  else Except.error JsError.typeError

/-- PixelMapEntry: one grid cell of the mosaic, a palette key plus 1-based
grid coordinates. -/
structure MosaicPixel where
  color : String
  x : Nat
  y : Nat
deriving DecidableEq

/-- Mapping step of Mosaic.prototype.getPixelMap: tileColors.map((color, i) =>
with x = (i mod size.x) + 1 and y = floor(i / size.x) + 1; gx is size.x, the
grid width, and tileColors is the key list from the offload coordinator. -/
def getPixelMap (gx : Nat) (tileColors : List String) : List MosaicPixel :=
  tileColors.enum.map (fun p => { color := p.2, x := p.1 % gx + 1, y := p.1 / gx + 1 })

/-- Pixel-map entry together with its JavaScript object identity: each
callback of tileColors.map allocates a fresh object, so distinct positions of
the pixel map hold distinct references even when the field values coincide.
The ref field records that allocation identity. -/
structure RefPixel where
  ref : Nat
  val : MosaicPixel
deriving DecidableEq

/-- JavaScript strict equality on objects is reference identity. -/
instance : BEq RefPixel := ⟨fun p q => p.ref == q.ref⟩

/-- Array.prototype.indexOf with strict equality; returns -1 when absent. -/
def jsIndexOf [BEq α] : List α → α → Int
  | [], _ => -1
  | a :: rest, v =>
    if a == v then 0
    else
      let r := jsIndexOf rest v
      if r = -1 then -1 else r + 1

/-- Source function unique(value, index, self): self.indexOf(value) === index. -/
def unique [BEq α] (value : α) (index : Nat) (self : List α) : Bool :=
  jsIndexOf self value == (index : Int)

/-- Array.prototype.filter(cb) where cb receives (value, index, self). -/
def jsFilterWithIndex (self : List α) (cb : α → Nat → List α → Bool) : List α :=
  self.enum.filterMap (fun p => if cb p.2 p.1 self then some p.2 else none)

/-- Pixel map as built inside Mosaic.prototype.create, instrumented with the
allocation identity of each entry (entry i is the i-th fresh object). -/
def buildRefPixelMap (tileColors : List String) (gx : Nat) : List RefPixel :=
  tileColors.enum.map (fun p =>
    { ref := p.1, val := { color := p.2, x := p.1 % gx + 1, y := p.1 / gx + 1 } })

/-- Key list handed to downloadLimitedItems in Mosaic.prototype.create:
pixelMap.filter(unique).map(pixel => pixel.color).  The filter compares whole
pixel-map entries (objects) with strict equality. -/
def uniqueColorsJs (pixelMap : List RefPixel) : List String :=
  (jsFilterWithIndex pixelMap unique).map (fun p => p.val.color)

/-- State of one run of Mosaic.prototype.downloadLimitedItems.
complete, aborted, results, queued, i are the closure variables of the source;
inflight (started-but-uncompleted item indices), started (indices passed to
the iterator, in call order), cbCalled (the f.called flag of the once wrapper)
and cbCalls (invocations that reached the wrapped callback: Except.ok carries
the results argument of callback(null, results), Except.error the error of
callback(err)) record the observable effects. -/
structure LoaderState (ρ ε : Type) where
  complete : Nat
  aborted : Bool
  results : List (Option ρ)
  queued : Nat
  i : Nat
  inflight : List Nat
  started : List Nat
  cbCalled : Bool
  cbCalls : List (Except ε (List (Option ρ)))

/-- Invocation of the once-wrapped callback: a second call is a no-op. -/
def callCb (s : LoaderState ρ ε) (v : Except ε (List (Option ρ))) : LoaderState ρ ε :=
  if s.cbCalled then s
  else { s with cbCalled := true, cbCalls := s.cbCalls ++ [v] }

/-- Source function push(): idx = i++, queued += 1, iterator(arr[idx], ...).
Starting the fetch appends idx to inflight and to started. -/
def pushState (s : LoaderState ρ ε) : LoaderState ρ ε :=
  { s with
      i := s.i + 1
      queued := s.queued + 1
      inflight := s.inflight ++ [s.i]
      started := s.started ++ [s.i] }

/-- While loop of flush(): while (queued < limit) { if (aborted) break;
if (i === l) break; push() }.  The fuel argument is exactly l - i at every
call, so fuel runs out only when the i === l break would fire anyway; the
recursion is therefore the exact loop. -/
def flushLoopAux (limit l : Nat) : Nat → LoaderState ρ ε → LoaderState ρ ε
  | 0, s => s
  | fuel + 1, s =>
    if s.queued < limit ∧ s.aborted = false ∧ s.i < l then
      flushLoopAux limit l fuel (pushState s)
    else s

/-- Source function flush(): if (complete === l) return callback(null, results);
otherwise top up the in-flight fetches. -/
def flush (limit l : Nat) (s : LoaderState ρ ε) : LoaderState ρ ε :=
  if s.complete = l then callCb s (Except.ok s.results)
  else flushLoopAux limit l (l - s.i) s

/-- Closure state right after the variable declarations and the
for-loop results[r] = null of downloadLimitedItems. -/
def initLoader (l : Nat) : LoaderState ρ ε :=
  { complete := 0, aborted := false, results := List.replicate l none,
    queued := 0, i := 0, inflight := [], started := [], cbCalled := false, cbCalls := [] }

/-- downloadLimitedItems up to and including the initial synchronous flush(). -/
def startLoader (limit l : Nat) : LoaderState ρ ε := flush limit l (initLoader l)

/-- Completion event of an asynchronous fetch: the iterator's continuation for
item idx is invoked with success or with an error. -/
inductive LoadEv (ε : Type) where
  | ok (idx : Nat)
  | err (idx : Nat) (e : ε)

/-- Success continuation of iterator(arr[idx], cont): results[idx] = result,
complete += 1, queued -= 1, flush().  res idx is the fetched asset for item
idx. -/
def completeOk (limit l : Nat) (res : Nat → ρ) (s : LoaderState ρ ε) (idx : Nat) :
    LoaderState ρ ε :=
  flush limit l
    { s with
        inflight := s.inflight.erase idx
        results := s.results.set idx (some (res idx))
        complete := s.complete + 1
        queued := s.queued - 1 }

/-- Error continuation: abort(err) sets aborted = true and calls the wrapped
callback with the error (queued and results are left untouched). -/
def completeErr (s : LoaderState ρ ε) (idx : Nat) (e : ε) : LoaderState ρ ε :=
  callCb { s with inflight := s.inflight.erase idx, aborted := true } (Except.error e)

/-- One external event.  Only a continuation of a started, not-yet-completed
fetch can fire; an event naming any other index has no effect (such events do
not occur in real executions, making them no-ops lets runs range over all
event lists). -/
def loaderStep (limit l : Nat) (res : Nat → ρ) (s : LoaderState ρ ε) :
    LoadEv ε → LoaderState ρ ε
  | .ok idx => if idx ∈ s.inflight then completeOk limit l res s idx else s
  | .err idx e => if idx ∈ s.inflight then completeErr s idx e else s

/-- Full run: the synchronous part of downloadLimitedItems followed by an
arbitrary interleaving of completion events. -/
def runLoader (limit l : Nat) (res : Nat → ρ) (evs : List (LoadEv ε)) : LoaderState ρ ε :=
  evs.foldl (loaderStep limit l res) (startLoader limit l)

/-- Fully populated results array: entry j holds the result of item j. -/
def fullResults (l : Nat) (res : Nat → ρ) : List (Option ρ) :=
  (List.range l).map (fun j => some (res j))

/-- Structural invariant of the loader state, preserved by every internal
action (it also holds at the intermediate point inside completeOk before its
flush). -/
structure LoaderInv0 (limit l : Nat) (res : Nat → ρ) (s : LoaderState ρ ε) : Prop where
  res_len : s.results.length = l
  started_eq : s.started = List.range s.i
  i_le : s.i ≤ l
  queued_le : s.queued ≤ limit
  nodup : s.inflight.Nodup
  inflight_lt : ∀ j ∈ s.inflight, j < s.i
  inflight_none : ∀ j ∈ s.inflight, s.results[j]? = some none
  fresh_none : ∀ j, s.i ≤ j → j < l → s.results[j]? = some none
  val_res : ∀ j v, s.results[j]? = some (some v) → v = res j
  count_res : s.results.countP (fun o => o.isSome) = s.complete
  live_len : s.aborted = false → s.inflight.length = s.queued
  live_sum : s.aborted = false → s.complete + s.inflight.length = s.i
  dead_len : s.aborted = true → s.inflight.length ≤ s.queued
  dead_sum : s.aborted = true → s.complete + s.inflight.length < s.i
  ab_cb : s.aborted = true → s.cbCalled = true
  cb_empty : s.cbCalled = false → s.cbCalls = []
  cb_one : s.cbCalled = true →
    ((∃ e, s.cbCalls = [Except.error e]) ∧ s.aborted = true) ∨
      (s.cbCalls = [Except.ok (fullResults l res)] ∧ s.aborted = false ∧ s.complete = l)

/-- Loader invariant at event boundaries: additionally, once every item has
completed the callback has fired. -/
def LoaderInv (limit l : Nat) (res : Nat → ρ) (s : LoaderState ρ ε) : Prop :=
  LoaderInv0 limit l res s ∧ (s.aborted = false → s.complete = l → s.cbCalled = true)

/-- Decidable equality for Except values, used only to evaluate witnesses. -/
instance instDecEqExcept {ε α : Type} [DecidableEq ε] [DecidableEq α] :
    DecidableEq (Except ε α)
  | .ok x, .ok y =>
    if h : x = y then .isTrue (by rw [h]) else .isFalse (fun hc => by cases hc; exact h rfl)
  | .error x, .error y =>
    if h : x = y then .isTrue (by rw [h]) else .isFalse (fun hc => by cases hc; exact h rfl)
  | .ok _, .error _ => .isFalse (fun hc => by cases hc)
  | .error _, .ok _ => .isFalse (fun hc => by cases hc)

/-- Mosaic.prototype.findCurrentRow: the pixel-map entries of one row. -/
def findCurrentRow (pixelMap : List MosaicPixel) (currentRowIndex : Nat) : List MosaicPixel :=
  pixelMap.filter (fun pixel => pixel.y == currentRowIndex)

/-- Mosaic.prototype.currentRowDownloaded: completeTiles[elem.color] exists and
is complete for every entry of the row; completeTiles is modeled by the list
of colors whose tile image has finished loading. -/
def currentRowDownloaded (currentRow : List MosaicPixel) (completeTiles : List String) : Bool :=
  !(currentRow.any (fun elem => !(completeTiles.contains elem.color)))

/-- Largest row index occurring in the pixel map (0 when the map is empty). -/
def maxRow (pixelMap : List MosaicPixel) : Nat :=
  pixelMap.foldr (fun p m => max p.y m) 0

/-- Recursive body of renderCompleteRows in Mosaic.prototype.create: if the
current row is fully downloaded, paint it, advance the row index, and recurse
while the next row is non-empty.  Returns the entries painted by this
invocation (in paint order) and the new currentRowIndex.  The fuel argument is
maxRow + 1 - idx at every call, and the recursion is guarded by the next row
being non-empty, which forces idx + 1 <= maxRow; hence the fuel-0 fallback
inside the guarded branch is unreachable and the recursion is exactly the
source's self-recursion. -/
def renderAux (pixelMap : List MosaicPixel) (tiles : List String) :
    Nat → Nat → List MosaicPixel × Nat
  | fuel, idx =>
    let row := findCurrentRow pixelMap idx
    if currentRowDownloaded row tiles then
      let next := findCurrentRow pixelMap (idx + 1)
      if next.isEmpty then (row, idx + 1)
      else
        match fuel with
        | 0 => (row, idx + 1)
        | fuel' + 1 =>
          let r2 := renderAux pixelMap tiles fuel' (idx + 1)
          (row ++ r2.1, r2.2)
    else ([], idx)

/-- renderCompleteRows at the current row index. -/
def renderCompleteRows (pixelMap : List MosaicPixel) (tiles : List String) (idx : Nat) :
    List MosaicPixel × Nat :=
  renderAux pixelMap tiles (maxRow pixelMap + 1 - idx) idx

/-- Observable render state: loaded tile colors, currentRowIndex, and the
history of paint calls, each recorded together with the loaded-tiles list at
the moment it was issued. -/
structure RenderState where
  tiles : List String
  rowIdx : Nat
  history : List (MosaicPixel × List String)

/-- One event of the render pass: some c is the onload handler of the tile
asset for color c (completeTiles[c] = image, then renderCompleteRows()); none
is a bare re-check (the loader's final callback also calls
renderCompleteRows()). -/
def renderStep (pixelMap : List MosaicPixel) (s : RenderState) (ev : Option String) :
    RenderState :=
  let tiles := match ev with
    | some c => s.tiles ++ [c]
    | none => s.tiles
  let r := renderCompleteRows pixelMap tiles s.rowIdx
  { tiles := tiles, rowIdx := r.2, history := s.history ++ r.1.map (fun p => (p, tiles)) }

/-- Render pass: currentRowIndex starts at 1, no tiles loaded, then an
arbitrary sequence of asset-arrival and re-check events. -/
def renderRun (pixelMap : List MosaicPixel) (evs : List (Option String)) : RenderState :=
  evs.foldl (renderStep pixelMap) { tiles := [], rowIdx := 1, history := [] }

/-- Concatenation of the rows a, a+1, ..., a+m-1 of the pixel map, in row
order. -/
def rowsFrom (pixelMap : List MosaicPixel) (a m : Nat) : List MosaicPixel :=
  (List.range m).flatMap (fun k => findCurrentRow pixelMap (a + k))

/-- Concatenation of the rows 1, ..., k of the pixel map. -/
def paintedUpTo (pixelMap : List MosaicPixel) (k : Nat) : List MosaicPixel :=
  rowsFrom pixelMap 1 k

/-- Render invariant: the paint history is exactly the rows below the current
row index, in row order, and every paint was issued while its whole row was
downloaded. -/
def RenderInv (pixelMap : List MosaicPixel) (s : RenderState) : Prop :=
  1 ≤ s.rowIdx ∧
  s.history.map Prod.fst = paintedUpTo pixelMap (s.rowIdx - 1) ∧
  ∀ pr ∈ s.history, ∀ q ∈ findCurrentRow pixelMap pr.1.y, pr.2.contains q.color = true

/-- Reduced channel values never exceed 255 (for a positive palette size). -/
theorem quantizeChannel_le (c n : Nat) (hc : c ≤ 255) (hn : 1 ≤ n) :
    quantizeChannel c n ≤ 255 := by
  unfold quantizeChannel
  have h1 : c * n / 255 ≤ n := by
    have h2 : c * n ≤ 255 * n := Nat.mul_le_mul_right n hc
    have h3 : c * n / 255 ≤ 255 * n / 255 := Nat.div_le_div_right h2
    have h4 : 255 * n / 255 = n := Nat.mul_div_cancel_left n (by omega)
    omega
  have h5 : c * n / 255 * 255 ≤ n * 255 := Nat.mul_le_mul_right 255 h1
  have h6 : c * n / 255 * 255 / n ≤ n * 255 / n := Nat.div_le_div_right h5
  have h7 : n * 255 / n = 255 := Nat.mul_div_cancel_left 255 (by omega)
  omega

/-- C1 counterexample: the claim "at most n distinct reduced values per
channel" fails at the concrete palette size n = 1, where the channel value
set over components 0..255 is the two-element set containing 0 (from any
c < 255) and 255 (from c = 255). -/
theorem channelValues_card_counterexample : ¬ ((channelValues 1).card ≤ 1) := by decide

/-- C1 (amended): for every palette size n >= 1, the set of distinct reduced
values per channel has cardinality at most n + 1.  Every reduced value is
determined by the bucket floor(c * n / 255), which lies in 0..n. -/
theorem channelValues_card_le (n : Nat) (hn : 1 ≤ n) : (channelValues n).card ≤ n + 1 := by
  have hsub : channelValues n ⊆ (Finset.range (n + 1)).image (fun bkt => bkt * 255 / n) := by
    intro v hv
    rcases Finset.mem_image.mp hv with ⟨c, hc, hval⟩
    refine Finset.mem_image.mpr ⟨c * n / 255, Finset.mem_range.mpr ?_, ?_⟩
    · have hc' : c ≤ 255 := by have := Finset.mem_range.mp hc; omega
      have h2 : c * n ≤ 255 * n := Nat.mul_le_mul_right n hc'
      have h3 : c * n / 255 ≤ 255 * n / 255 := Nat.div_le_div_right h2
      have h4 : 255 * n / 255 = n := Nat.mul_div_cancel_left n (by omega)
      omega
    · exact hval
  calc (channelValues n).card
      ≤ ((Finset.range (n + 1)).image (fun bkt => bkt * 255 / n)).card :=
        Finset.card_le_card hsub
    _ ≤ (Finset.range (n + 1)).card := Finset.card_image_le
    _ = n + 1 := Finset.card_range _

/-- Witness for the amended C1 at palette size 16. -/
theorem channelValues_card_le_witness : 1 ≤ 16 ∧ (channelValues 16).card ≤ 16 + 1 :=
  ⟨by decide, channelValues_card_le 16 (by decide)⟩

/-- Component encoding, checked for all byte values: two characters, all
lowercase hex digits. -/
theorem convertToHex_byte : ∀ v : Nat, v < 256 →
    (convertToHex v).length = 2 ∧ (convertToHex v).data.all isLowerHexDigit = true := by
  decide

/-- C7: for components in [0,255] and palette size n >= 1, the quantizer
reduces each component with floor((floor(c/255*n)/n)*255), concatenates the
three two-digit zero-padded encodings in R,G,B order, and the result is a
6-character lowercase hex string. -/
theorem rgbToHex_format (r g b n : Nat)
    (hr : r ≤ 255) (hg : g ≤ 255) (hb : b ≤ 255) (hn : 1 ≤ n) :
    rgbToHex r g b n =
      convertToHex (quantizeChannel r n) ++ convertToHex (quantizeChannel g n) ++
        convertToHex (quantizeChannel b n) ∧
    (rgbToHex r g b n).length = 6 ∧
    (rgbToHex r g b n).data.all isLowerHexDigit = true := by
  have h1 := convertToHex_byte (quantizeChannel r n)
    (by have := quantizeChannel_le r n hr hn; omega)
  have h2 := convertToHex_byte (quantizeChannel g n)
    (by have := quantizeChannel_le g n hg hn; omega)
  have h3 := convertToHex_byte (quantizeChannel b n)
    (by have := quantizeChannel_le b n hb hn; omega)
  refine ⟨rfl, ?_, ?_⟩
  · show (convertToHex (quantizeChannel r n) ++ convertToHex (quantizeChannel g n) ++
      convertToHex (quantizeChannel b n)).length = 6
    rw [String.length_append, String.length_append, h1.1, h2.1, h3.1]
  · show ((convertToHex (quantizeChannel r n) ++ convertToHex (quantizeChannel g n) ++
      convertToHex (quantizeChannel b n)).data.all isLowerHexDigit) = true
    rw [String.data_append, String.data_append]
    simp only [List.all_append, h1.2, h2.2, h3.2, Bool.and_self]

/-- Witness for C7 at (r, g, b, n) = (10, 200, 255, 16). -/
theorem rgbToHex_format_witness :
    rgbToHex 10 200 255 16 =
      convertToHex (quantizeChannel 10 16) ++ convertToHex (quantizeChannel 200 16) ++
        convertToHex (quantizeChannel 255 16) ∧
    (rgbToHex 10 200 255 16).length = 6 ∧
    (rgbToHex 10 200 255 16).data.all isLowerHexDigit = true :=
  rgbToHex_format 10 200 255 16 (by decide) (by decide) (by decide) (by decide)

/-- C8 evaluation: behavior of both strategy branches of
Mosaic.prototype.getColorMap on a one-pixel buffer.  The worker branch
returns the key list; the fallback branch, instead of computing the same
list, throws a TypeError at var MosaicWorker = new MosaicWorker(), so the
two strategies do not agree. -/
theorem getColorMapMain_fallback_bug :
    getColorMapMain true [0, 0, 0, 255] 16 = Except.ok (workerGetColorMap [0, 0, 0, 255] 16) ∧
    getColorMapMain false [0, 0, 0, 255] 16 = Except.error JsError.typeError ∧
    getColorMapMain false [0, 0, 0, 255] 16 ≠ getColorMapMain true [0, 0, 0, 255] 16 := by
  refine ⟨rfl, rfl, ?_⟩
  decide

/-- C2 evaluation: in Mosaic.prototype.create, pixelMap.filter(unique) is
applied to the list of pixel-map entry objects; indexOf uses strict equality,
which on objects is reference identity, and every entry is a fresh
allocation, so the filter keeps everything.  On a two-cell pixel map whose
cells share the color "000000" the key list handed to the loader therefore
contains "000000" twice instead of once. -/
theorem uniqueColorsJs_duplicate :
    uniqueColorsJs (buildRefPixelMap ["000000", "000000"] 2) = ["000000", "000000"] ∧
    ¬ (uniqueColorsJs (buildRefPixelMap ["000000", "000000"] 2)).Nodup := by
  exact ⟨by decide, by decide⟩

/-- Counting a predicate over an initial segment of the naturals with a
unique satisfier. -/
theorem countP_range_unique (p : Nat → Bool) (i0 : Nat) (h : ∀ j, p j = true ↔ j = i0) :
    ∀ m : Nat, (List.range m).countP p = if i0 < m then 1 else 0 := by
  intro m
  induction m with
  | zero => simp
  | succ m ih =>
    have hsingle : List.countP p [m] = if p m = true then 1 else 0 := by
      simp [List.countP_cons]
    rw [List.range_succ, List.countP_append, ih, hsingle]
    by_cases hm : m = i0
    · subst hm
      rw [if_pos ((h m).mpr rfl)]
      split_ifs <;> omega
    · have hp : p m = false := by
        cases hpm : p m
        · rfl
        · exact absurd ((h m).mp hpm) hm
      rw [hp]
      simp only [Bool.false_eq_true, if_false]
      split_ifs <;> omega

/-- C9: for a grid of width gx and height gy (both >= 1) and a color list of
length gx * gy, the built pixel map has gx * gy entries, entry i carries
coordinates ((i mod gx) + 1, (i div gx) + 1) in row-major order, and every
coordinate pair in [1,gx] x [1,gy] appears exactly once. -/
theorem getPixelMap_complete (gx gy : Nat) (tileColors : List String)
    (hgx : 1 ≤ gx) (hgy : 1 ≤ gy) (hlen : tileColors.length = gx * gy) :
    (getPixelMap gx tileColors).length = gx * gy ∧
    (∀ j (hj : j < tileColors.length),
      (getPixelMap gx tileColors)[j]? =
        some { color := tileColors[j], x := j % gx + 1, y := j / gx + 1 }) ∧
    (∀ a b, 1 ≤ a → a ≤ gx → 1 ≤ b → b ≤ gy →
      (getPixelMap gx tileColors).countP (fun p => p.x == a && p.y == b) = 1) := by
  refine ⟨?_, ?_, ?_⟩
  · unfold getPixelMap
    rw [List.length_map, List.enum_length, hlen]
  · intro j hj
    unfold getPixelMap
    rw [List.getElem?_map, List.getElem?_enum, List.getElem?_eq_getElem hj]
    rfl
  · intro a b ha1 ha2 hb1 hb2
    have h1 : (getPixelMap gx tileColors).countP (fun p => p.x == a && p.y == b)
        = tileColors.enum.countP
            ((fun j => ((j % gx + 1 == a) && (j / gx + 1 == b))) ∘ Prod.fst) := by
      unfold getPixelMap
      rw [List.countP_map]
      rfl
    have h2 : tileColors.enum.countP
            ((fun j => ((j % gx + 1 == a) && (j / gx + 1 == b))) ∘ Prod.fst)
        = (List.range tileColors.length).countP
            (fun j => ((j % gx + 1 == a) && (j / gx + 1 == b))) := by
      rw [← List.countP_map, List.enum_map_fst]
    have hiff : ∀ j, (((j % gx + 1 == a) && (j / gx + 1 == b)) = true) ↔
        j = (b - 1) * gx + (a - 1) := by
      intro j
      constructor
      · intro hj
        simp only [Bool.and_eq_true, beq_iff_eq] at hj
        obtain ⟨hj1', hj2'⟩ := hj
        have hq : j / gx = b - 1 := by omega
        have hr : j % gx = a - 1 := by omega
        have hdm := Nat.div_add_mod j gx
        rw [hq, hr] at hdm
        rw [← hdm, Nat.mul_comm]
      · intro hj
        subst hj
        have hmod : ((b - 1) * gx + (a - 1)) % gx = a - 1 := by
          rw [Nat.mul_comm, Nat.mul_add_mod]
          exact Nat.mod_eq_of_lt (by omega)
        have hdiv : ((b - 1) * gx + (a - 1)) / gx = b - 1 := by
          rw [Nat.mul_comm, Nat.mul_add_div (by omega : gx > 0)]
          rw [Nat.div_eq_of_lt (by omega : a - 1 < gx)]
          omega
        simp only [Bool.and_eq_true, beq_iff_eq, hmod, hdiv]
        omega
    have hi0 : (b - 1) * gx + (a - 1) < gx * gy :=
      calc (b - 1) * gx + (a - 1)
          < (b - 1) * gx + gx := Nat.add_lt_add_left (by omega) _
        _ = ((b - 1) + 1) * gx := (Nat.succ_mul (b - 1) gx).symm
        _ ≤ gy * gx := Nat.mul_le_mul_right gx (by omega)
        _ = gx * gy := Nat.mul_comm gy gx
    rw [h1, h2, hlen, countP_range_unique _ _ hiff, if_pos hi0]

/-- Setting a none entry to a some entry raises the isSome count by one. -/
theorem countP_set_some (rs : List (Option ρ)) (n : Nat) (v : ρ) (h : rs[n]? = some none) :
    (rs.set n (some v)).countP (fun o => o.isSome) = rs.countP (fun o => o.isSome) + 1 := by
  induction rs generalizing n with
  | nil => simp at h
  | cons a t ih =>
    cases n with
    | zero =>
      simp only [List.getElem?_cons_zero, Option.some.injEq] at h
      subst h
      simp [List.countP_cons]
    | succ n =>
      simp only [List.getElem?_cons_succ] at h
      simp [List.countP_cons, ih n h]
      omega

/-- A results list of full length and full isSome count whose populated
entries agree with res is exactly the fully populated results array. -/
theorem results_full (l : Nat) (res : Nat → ρ) (rs : List (Option ρ))
    (hlen : rs.length = l) (hcnt : rs.countP (fun o => o.isSome) = l)
    (hval : ∀ j v, rs[j]? = some (some v) → v = res j) :
    rs = fullResults l res := by
  have hall : ∀ o ∈ rs, o.isSome = true := by
    rw [← hlen] at hcnt
    exact List.countP_eq_length.mp hcnt
  apply List.ext_getElem?
  intro j
  by_cases hj : j < l
  · have hj' : j < rs.length := by omega
    rw [List.getElem?_eq_getElem hj']
    have hsome := hall _ (List.getElem_mem hj')
    obtain ⟨v, hv⟩ := Option.isSome_iff_exists.mp hsome
    have hvres : v = res j := hval j v (by rw [List.getElem?_eq_getElem hj', hv])
    unfold fullResults
    rw [List.getElem?_map, List.getElem?_range hj, hv, hvres]
    rfl
  · rw [List.getElem?_eq_none (by omega : rs.length ≤ j)]
    unfold fullResults
    rw [List.getElem?_eq_none]
    rw [List.length_map, List.length_range]
    omega

/-- Invariant preservation by push() under the dispatch-loop guard. -/
theorem pushState_inv0 {limit l : Nat} {res : Nat → ρ} {s : LoaderState ρ ε}
    (h : LoaderInv0 limit l res s) (hq : s.queued < limit) (ha : s.aborted = false)
    (hi : s.i < l) : LoaderInv0 limit l res (pushState s) := by
  refine ⟨h.res_len, ?_, ?_, ?_, ?_, ?_, ?_, ?_, h.val_res, h.count_res,
    ?_, ?_, ?_, ?_, h.ab_cb, h.cb_empty, h.cb_one⟩
  · show s.started ++ [s.i] = List.range (s.i + 1)
    rw [List.range_succ, h.started_eq]
  · show s.i + 1 ≤ l
    omega
  · show s.queued + 1 ≤ limit
    omega
  · show (s.inflight ++ [s.i]).Nodup
    rw [List.nodup_append]
    refine ⟨h.nodup, List.nodup_singleton _, ?_⟩
    intro a haf hb
    have : a = s.i := by simpa using hb
    have := h.inflight_lt a haf
    omega
  · intro j hj
    show j < s.i + 1
    rcases List.mem_append.mp hj with hold | hnew
    · have := h.inflight_lt j hold
      omega
    · have : j = s.i := by simpa using hnew
      omega
  · intro j hj
    show s.results[j]? = some none
    rcases List.mem_append.mp hj with hold | hnew
    · exact h.inflight_none j hold
    · have hji : j = s.i := by simpa using hnew
      subst hji
      exact h.fresh_none _ (Nat.le_refl _) hi
  · intro j h1 h2
    exact h.fresh_none j (by exact Nat.le_of_succ_le h1) h2
  · intro _
    show (s.inflight ++ [s.i]).length = s.queued + 1
    rw [List.length_append, h.live_len ha]
    rfl
  · intro _
    show s.complete + (s.inflight ++ [s.i]).length = s.i + 1
    rw [List.length_append]
    have := h.live_sum ha
    simp only [List.length_singleton]
    omega
  · intro hab
    have hab' : s.aborted = true := hab
    rw [ha] at hab'
    cases hab'
  · intro hab
    have hab' : s.aborted = true := hab
    rw [ha] at hab'
    cases hab'

/-- The dispatch loop preserves the structural invariant and leaves complete,
aborted and the callback state untouched. -/
theorem flushLoopAux_spec {limit l : Nat} {res : Nat → ρ} :
    ∀ (fuel : Nat) (s : LoaderState ρ ε), LoaderInv0 limit l res s →
      LoaderInv0 limit l res (flushLoopAux limit l fuel s) ∧
      (flushLoopAux limit l fuel s).complete = s.complete ∧
      (flushLoopAux limit l fuel s).aborted = s.aborted ∧
      (flushLoopAux limit l fuel s).cbCalled = s.cbCalled ∧
      (flushLoopAux limit l fuel s).cbCalls = s.cbCalls := by
  intro fuel
  induction fuel with
  | zero =>
    intro s h
    exact ⟨h, rfl, rfl, rfl, rfl⟩
  | succ fuel ih =>
    intro s h
    by_cases hc : s.queued < limit ∧ s.aborted = false ∧ s.i < l
    · have hrec := ih (pushState s) (pushState_inv0 h hc.1 hc.2.1 hc.2.2)
      have heq : flushLoopAux limit l (fuel + 1) s = flushLoopAux limit l fuel (pushState s) := by
        show (if s.queued < limit ∧ s.aborted = false ∧ s.i < l then
          flushLoopAux limit l fuel (pushState s) else s) = _
        rw [if_pos hc]
      rw [heq]
      exact ⟨hrec.1, hrec.2.1, hrec.2.2.1, hrec.2.2.2.1, hrec.2.2.2.2⟩
    · have heq : flushLoopAux limit l (fuel + 1) s = s := by
        show (if s.queued < limit ∧ s.aborted = false ∧ s.i < l then
          flushLoopAux limit l fuel (pushState s) else s) = _
        rw [if_neg hc]
      rw [heq]
      exact ⟨h, rfl, rfl, rfl, rfl⟩

/-- flush() upgrades the structural invariant to the boundary invariant. -/
theorem flush_inv {limit l : Nat} {res : Nat → ρ} {s : LoaderState ρ ε}
    (h : LoaderInv0 limit l res s) : LoaderInv limit l res (flush limit l s) := by
  unfold flush
  by_cases hc : s.complete = l
  · rw [if_pos hc]
    unfold callCb
    cases hcb : s.cbCalled with
    | true =>
      rw [if_pos rfl]
      exact ⟨h, fun _ _ => hcb⟩
    | false =>
      rw [if_neg Bool.false_ne_true]
      have hempty : s.cbCalls = [] := h.cb_empty hcb
      have hab : s.aborted = false := by
        cases habv : s.aborted
        · rfl
        · have h1 := h.dead_sum habv
          have h2 := h.i_le
          omega
      have hfull : s.results = fullResults l res :=
        results_full l res s.results h.res_len (by rw [h.count_res, hc]) h.val_res
      constructor
      · refine ⟨h.res_len, h.started_eq, h.i_le, h.queued_le, h.nodup, h.inflight_lt,
          h.inflight_none, h.fresh_none, h.val_res, h.count_res,
          h.live_len, h.live_sum, h.dead_len, h.dead_sum, fun _ => rfl, ?_, ?_⟩
        · intro hf
          cases hf
        · intro _
          right
          refine ⟨?_, hab, hc⟩
          show s.cbCalls ++ [Except.ok s.results] = [Except.ok (fullResults l res)]
          rw [hempty, hfull]
          rfl
      · intro _ _
        rfl
  · rw [if_neg hc]
    have hrec := flushLoopAux_spec (l - s.i) s h
    refine ⟨hrec.1, ?_⟩
    intro _ hcomp
    rw [hrec.2.1] at hcomp
    exact absurd hcomp hc

/-- Invariant preservation by a successful completion event. -/
theorem completeOk_inv {limit l : Nat} {res : Nat → ρ} {s : LoaderState ρ ε}
    (h : LoaderInv limit l res s) (idx : Nat) (hidx : idx ∈ s.inflight) :
    LoaderInv limit l res (completeOk limit l res s idx) := by
  obtain ⟨h0, _⟩ := h
  have hlen1 : 1 ≤ s.inflight.length := List.length_pos.mpr (List.ne_nil_of_mem hidx)
  have hlq : s.inflight.length ≤ s.queued := by
    cases habv : s.aborted
    · exact Nat.le_of_eq (h0.live_len habv)
    · exact h0.dead_len habv
  have hidxlt : idx < s.i := h0.inflight_lt idx hidx
  have hidxres : s.results[idx]? = some none := h0.inflight_none idx hidx
  have herasesub : ∀ j, j ∈ s.inflight.erase idx → j ∈ s.inflight :=
    fun j hj => List.erase_subset _ _ hj
  have heraselen : (s.inflight.erase idx).length = s.inflight.length - 1 :=
    List.length_erase_of_mem hidx
  apply flush_inv
  refine ⟨?_, h0.started_eq, h0.i_le, ?_, List.Nodup.erase idx h0.nodup,
    ?_, ?_, ?_, ?_, ?_, ?_, ?_, ?_, ?_, h0.ab_cb, h0.cb_empty, ?_⟩
  · show (s.results.set idx (some (res idx))).length = l
    rw [List.length_set]
    exact h0.res_len
  · show s.queued - 1 ≤ limit
    have := h0.queued_le
    omega
  · intro j hj
    exact Nat.lt_of_lt_of_le (h0.inflight_lt j (herasesub j hj)) (Nat.le_refl _)
  · intro j hj
    obtain ⟨hne, hmem⟩ := (List.Nodup.mem_erase_iff h0.nodup).mp hj
    show (s.results.set idx (some (res idx)))[j]? = some none
    rw [List.getElem?_set_ne (fun hcon => hne hcon.symm)]
    exact h0.inflight_none j hmem
  · intro j h1 h2
    have h1s : s.i ≤ j := h1
    show (s.results.set idx (some (res idx)))[j]? = some none
    rw [List.getElem?_set_ne (by omega : idx ≠ j)]
    exact h0.fresh_none j h1s h2
  · intro j v hjv
    by_cases hji : idx = j
    · subst hji
      rw [List.getElem?_set_self (by rw [h0.res_len]; have := h0.i_le; omega)] at hjv
      simp only [Option.some.injEq] at hjv
      exact hjv.symm
    · rw [List.getElem?_set_ne hji] at hjv
      exact h0.val_res j v hjv
  · show (s.results.set idx (some (res idx))).countP (fun o => o.isSome) = s.complete + 1
    rw [countP_set_some s.results idx (res idx) hidxres, h0.count_res]
  · intro hab
    show (s.inflight.erase idx).length = s.queued - 1
    rw [heraselen, h0.live_len hab]
  · intro hab
    show s.complete + 1 + (s.inflight.erase idx).length = s.i
    rw [heraselen]
    have := h0.live_sum hab
    omega
  · intro hab
    show (s.inflight.erase idx).length ≤ s.queued - 1
    rw [heraselen]
    have := h0.dead_len hab
    omega
  · intro hab
    show s.complete + 1 + (s.inflight.erase idx).length < s.i
    rw [heraselen]
    have := h0.dead_sum hab
    omega
  · intro hcb
    rcases h0.cb_one hcb with ⟨he, habt⟩ | ⟨hok, hab, hcomp⟩
    · exact Or.inl ⟨he, habt⟩
    · exfalso
      have h1 := h0.live_sum hab
      have h2 := h0.i_le
      omega

/-- Invariant preservation by an error completion event. -/
theorem completeErr_inv {limit l : Nat} {res : Nat → ρ} {s : LoaderState ρ ε}
    (h : LoaderInv limit l res s) (idx : Nat) (hidx : idx ∈ s.inflight) (e : ε) :
    LoaderInv limit l res (completeErr s idx e) := by
  obtain ⟨h0, _⟩ := h
  have hlen1 : 1 ≤ s.inflight.length := List.length_pos.mpr (List.ne_nil_of_mem hidx)
  have hlq : s.inflight.length ≤ s.queued := by
    cases habv : s.aborted
    · exact Nat.le_of_eq (h0.live_len habv)
    · exact h0.dead_len habv
  have herasesub : ∀ j, j ∈ s.inflight.erase idx → j ∈ s.inflight :=
    fun j hj => List.erase_subset _ _ hj
  have heraselen : (s.inflight.erase idx).length = s.inflight.length - 1 :=
    List.length_erase_of_mem hidx
  have hsumlt : s.complete + (s.inflight.erase idx).length < s.i := by
    rw [heraselen]
    cases habv : s.aborted
    · have h1 := h0.live_sum habv
      omega
    · have h1 := h0.dead_sum habv
      omega
  have hnotdone : ∀ hcb : s.cbCalled = true,
      ((∃ e0, s.cbCalls = [Except.error e0]) ∧ s.aborted = true) := by
    intro hcb
    rcases h0.cb_one hcb with hleft | ⟨hok, hab, hcomp⟩
    · exact hleft
    · exfalso
      have h1 := h0.live_sum hab
      have h2 := h0.i_le
      omega
  unfold completeErr callCb
  cases hcb : s.cbCalled with
  | true =>
    rw [if_pos rfl]
    constructor
    · refine ⟨h0.res_len, h0.started_eq, h0.i_le, h0.queued_le,
        List.Nodup.erase idx h0.nodup, ?_, ?_, h0.fresh_none, h0.val_res, h0.count_res,
        ?_, ?_, ?_, ?_, fun _ => rfl, ?_, ?_⟩
      · intro j hj
        exact h0.inflight_lt j (herasesub j hj)
      · intro j hj
        exact h0.inflight_none j (herasesub j hj)
      · intro hf
        cases hf
      · intro hf
        cases hf
      · intro _
        show (s.inflight.erase idx).length ≤ s.queued
        omega
      · intro _
        exact hsumlt
      · intro hf
        exact Bool.noConfusion hf
      · intro _
        exact Or.inl ⟨(hnotdone hcb).1, rfl⟩
    · intro hf
      cases hf
  | false =>
    rw [if_neg Bool.false_ne_true]
    constructor
    · refine ⟨h0.res_len, h0.started_eq, h0.i_le, h0.queued_le,
        List.Nodup.erase idx h0.nodup, ?_, ?_, h0.fresh_none, h0.val_res, h0.count_res,
        ?_, ?_, ?_, ?_, fun _ => rfl, ?_, ?_⟩
      · intro j hj
        exact h0.inflight_lt j (herasesub j hj)
      · intro j hj
        exact h0.inflight_none j (herasesub j hj)
      · intro hf
        cases hf
      · intro hf
        cases hf
      · intro _
        show (s.inflight.erase idx).length ≤ s.queued
        omega
      · intro _
        exact hsumlt
      · intro hf
        cases hf
      · intro _
        refine Or.inl ⟨⟨e, ?_⟩, rfl⟩
        show s.cbCalls ++ [Except.error e] = [Except.error e]
        rw [h0.cb_empty hcb]
        rfl
    · intro hf
      cases hf

/-- Invariant preservation by any external event. -/
theorem loaderStep_inv {limit l : Nat} {res : Nat → ρ} {s : LoaderState ρ ε}
    (h : LoaderInv limit l res s) (ev : LoadEv ε) :
    LoaderInv limit l res (loaderStep limit l res s ev) := by
  cases ev with
  | ok idx =>
    show LoaderInv limit l res (if idx ∈ s.inflight then completeOk limit l res s idx else s)
    by_cases hidx : idx ∈ s.inflight
    · rw [if_pos hidx]
      exact completeOk_inv h idx hidx
    · rw [if_neg hidx]
      exact h
  | err idx e =>
    show LoaderInv limit l res (if idx ∈ s.inflight then completeErr s idx e else s)
    by_cases hidx : idx ∈ s.inflight
    · rw [if_pos hidx]
      exact completeErr_inv h idx hidx e
    · rw [if_neg hidx]
      exact h

/-- Invariant preservation along any event list. -/
theorem foldl_loaderStep_inv {limit l : Nat} {res : Nat → ρ} :
    ∀ (evs : List (LoadEv ε)) (s : LoaderState ρ ε), LoaderInv limit l res s →
      LoaderInv limit l res (evs.foldl (loaderStep limit l res) s)
  | [], _, h => h
  | ev :: evs, s, h => foldl_loaderStep_inv evs _ (loaderStep_inv h ev)

/-- The initial closure state satisfies the structural invariant. -/
theorem initLoader_inv0 (limit l : Nat) (res : Nat → ρ) :
    LoaderInv0 (ε := ε) limit l res (initLoader l) := by
  refine ⟨List.length_replicate l none, rfl, Nat.zero_le l, Nat.zero_le limit,
    List.nodup_nil, ?_, ?_, ?_, ?_, ?_, fun _ => rfl, fun _ => rfl, ?_, ?_, ?_,
    fun _ => rfl, ?_⟩
  · intro j hj
    cases hj
  · intro j hj
    cases hj
  · intro j _ h2
    show (List.replicate l (none : Option ρ))[j]? = some none
    rw [List.getElem?_replicate, if_pos h2]
  · intro j v hjv
    have hjv' : (List.replicate l (none : Option ρ))[j]? = some (some v) := hjv
    rw [List.getElem?_replicate] at hjv'
    by_cases hjl : j < l
    · rw [if_pos hjl] at hjv'
      simp at hjv'
    · rw [if_neg hjl] at hjv'
      cases hjv'
  · show (List.replicate l (none : Option ρ)).countP (fun o => o.isSome) = 0
    rw [List.countP_replicate]
    rfl
  · intro hf
    cases hf
  · intro hf
    cases hf
  · intro hf
    cases hf
  · intro hf
    cases hf

/-- Every reachable loader state satisfies the boundary invariant. -/
theorem runLoader_inv (limit l : Nat) (res : Nat → ρ) (evs : List (LoadEv ε)) :
    LoaderInv limit l res (runLoader limit l res evs) :=
  foldl_loaderStep_inv evs _ (flush_inv (initLoader_inv0 limit l res))

/-- C4: throughout any execution of downloadLimitedItems the number of
started-but-uncompleted fetches never exceeds the concurrency limit, and
queued items are started in FIFO input order: the start log always equals
the first i item indices in increasing order.  Every intermediate moment of
an execution is the final state of the run over a prefix of its event list,
so quantifying over all event lists covers every moment. -/
theorem downloadLimitedItems_concurrency (limit l : Nat) (res : Nat → ρ)
    (evs : List (LoadEv ε)) :
    (runLoader limit l res evs).inflight.length ≤ limit ∧
    (runLoader limit l res evs).started = List.range (runLoader limit l res evs).i := by
  obtain ⟨h0, _⟩ := runLoader_inv limit l res evs
  refine ⟨?_, h0.started_eq⟩
  cases hab : (runLoader limit l res evs).aborted
  · rw [h0.live_len hab]
    exact h0.queued_le
  · exact Nat.le_trans (h0.dead_len hab) h0.queued_le

/-- C3: when every item of the batch has completed successfully
(complete = l), the once-wrapped final callback has fired exactly once, with
a null error and the length-l results array populated in original input
order; when some fetch failed (aborted), the single callback invocation
instead carries the error and no results array. -/
theorem downloadLimitedItems_callback (limit l : Nat) (res : Nat → ρ)
    (evs : List (LoadEv ε)) :
    ((runLoader limit l res evs).complete = l →
      (runLoader limit l res evs).cbCalls =
        [Except.ok ((List.range l).map (fun j => some (res j)))]) ∧
    ((runLoader limit l res evs).aborted = true →
      ∃ e, (runLoader limit l res evs).cbCalls = [Except.error e]) := by
  obtain ⟨h0, hfired⟩ := runLoader_inv limit l res evs
  constructor
  · intro hcomp
    have hab : (runLoader limit l res evs).aborted = false := by
      cases habv : (runLoader limit l res evs).aborted
      · rfl
      · exfalso
        have h1 := h0.dead_sum habv
        have h2 := h0.i_le
        omega
    have hcb := hfired hab hcomp
    rcases h0.cb_one hcb with ⟨_, habt⟩ | ⟨hok, _, _⟩
    · rw [hab] at habt
      cases habt
    · exact hok
  · intro hab
    have hcb := h0.ab_cb hab
    rcases h0.cb_one hcb with ⟨he, _⟩ | ⟨_, habf, _⟩
    · exact he
    · rw [hab] at habf
      cases habf

/-- Witness for C3: a two-item batch with limit 1.  Both items succeeding
yields the single ok callback with both results in order; an early failure
yields a single error callback. -/
theorem downloadLimitedItems_callback_witness :
    (runLoader 1 2 (fun j => j) [LoadEv.ok (ε := Nat) 0, LoadEv.ok 1]).cbCalls =
      [Except.ok ((List.range 2).map (fun j => some j))] ∧
    (∃ e, (runLoader 1 2 (fun j => j) [LoadEv.err 0 (7 : Nat), LoadEv.ok 1]).cbCalls =
      [Except.error e]) :=
  ⟨(downloadLimitedItems_callback 1 2 (fun j => j) [LoadEv.ok 0, LoadEv.ok 1]).1 (by decide),
   (downloadLimitedItems_callback 1 2 (fun j => j) [LoadEv.err 0 7, LoadEv.ok 1]).2 (by decide)⟩

/-- After an abort the dispatch loop is inert. -/
theorem flushLoopAux_aborted {limit l : Nat} (fuel : Nat) (s : LoaderState ρ ε)
    (hab : s.aborted = true) : flushLoopAux limit l fuel s = s := by
  cases fuel with
  | zero => rfl
  | succ fuel =>
    show (if s.queued < limit ∧ s.aborted = false ∧ s.i < l then
      flushLoopAux limit l fuel (pushState s) else s) = s
    rw [if_neg (by rw [hab]; simp)]

/-- Shape of an error completion when the callback has not fired yet. -/
theorem completeErr_eq_notcalled {s : LoaderState ρ ε} (hcb : s.cbCalled = false)
    (idx : Nat) (e : ε) :
    completeErr s idx e =
      { s with
          inflight := s.inflight.erase idx
          aborted := true
          cbCalled := true
          cbCalls := s.cbCalls ++ [Except.error e] } := by
  unfold completeErr callCb
  rw [if_neg (fun hc => Bool.noConfusion (hcb.symm.trans (hc : s.cbCalled = true)))]

/-- One event after an abort: the abort flag stays, nothing new is started,
and the callback log is frozen. -/
theorem loaderStep_aborted {limit l : Nat} {res : Nat → ρ} {s : LoaderState ρ ε}
    (h : LoaderInv limit l res s) (hab : s.aborted = true) (ev : LoadEv ε) :
    (loaderStep limit l res s ev).aborted = true ∧
    (loaderStep limit l res s ev).started = s.started ∧
    (loaderStep limit l res s ev).cbCalls = s.cbCalls ∧
    LoaderInv limit l res (loaderStep limit l res s ev) := by
  obtain ⟨h0, hfired⟩ := h
  cases ev with
  | ok idx =>
    by_cases hidx : idx ∈ s.inflight
    · have hstep : loaderStep limit l res s (LoadEv.ok idx) = completeOk limit l res s idx := by
        show (if idx ∈ s.inflight then completeOk limit l res s idx else s) = _
        rw [if_pos hidx]
      have hlen1 : 1 ≤ s.inflight.length := List.length_pos.mpr (List.ne_nil_of_mem hidx)
      have htcomp : ¬ (s.complete + 1 = l) := by
        have h1 := h0.dead_sum hab
        have h2 := h0.i_le
        omega
      have heq : completeOk limit l res s idx =
          { s with
              inflight := s.inflight.erase idx
              results := s.results.set idx (some (res idx))
              complete := s.complete + 1
              queued := s.queued - 1 } := by
        unfold completeOk flush
        rw [if_neg htcomp]
        exact flushLoopAux_aborted _ _ hab
      refine ⟨?_, ?_, ?_, ?_⟩
      · rw [hstep, heq]
        exact hab
      · rw [hstep, heq]
      · rw [hstep, heq]
      · rw [hstep]
        exact completeOk_inv ⟨h0, hfired⟩ idx hidx
    · have hstep : loaderStep limit l res s (LoadEv.ok idx) = s := by
        show (if idx ∈ s.inflight then completeOk limit l res s idx else s) = _
        rw [if_neg hidx]
      rw [hstep]
      exact ⟨hab, rfl, rfl, ⟨h0, hfired⟩⟩
  | err idx e =>
    by_cases hidx : idx ∈ s.inflight
    · have hstep : loaderStep limit l res s (LoadEv.err idx e) = completeErr s idx e := by
        show (if idx ∈ s.inflight then completeErr s idx e else s) = _
        rw [if_pos hidx]
      have hcbt : s.cbCalled = true := h0.ab_cb hab
      have heq : completeErr s idx e =
          { s with inflight := s.inflight.erase idx, aborted := true } := by
        unfold completeErr callCb
        rw [if_pos (hcbt : s.cbCalled = true)]
      refine ⟨?_, ?_, ?_, ?_⟩
      · rw [hstep, heq]
      · rw [hstep, heq]
      · rw [hstep, heq]
      · rw [hstep]
        exact completeErr_inv ⟨h0, hfired⟩ idx hidx e
    · have hstep : loaderStep limit l res s (LoadEv.err idx e) = s := by
        show (if idx ∈ s.inflight then completeErr s idx e else s) = _
        rw [if_neg hidx]
      rw [hstep]
      exact ⟨hab, rfl, rfl, ⟨h0, hfired⟩⟩

/-- Along any event list after an abort: nothing new is started, the
callback log is frozen, and the abort flag stays. -/
theorem foldl_aborted {limit l : Nat} {res : Nat → ρ} :
    ∀ (evs : List (LoadEv ε)) (s : LoaderState ρ ε), LoaderInv limit l res s →
      s.aborted = true →
      (evs.foldl (loaderStep limit l res) s).started = s.started ∧
      (evs.foldl (loaderStep limit l res) s).cbCalls = s.cbCalls ∧
      (evs.foldl (loaderStep limit l res) s).aborted = true := by
  intro evs
  induction evs with
  | nil =>
    intro s _ hab
    exact ⟨rfl, rfl, hab⟩
  | cons ev evs ih =>
    intro s h hab
    obtain ⟨hab', hst, hcb, hinv⟩ := loaderStep_aborted h hab ev
    obtain ⟨ih1, ih2, ih3⟩ := ih _ hinv hab'
    exact ⟨ih1.trans hst, ih2.trans hcb, ih3⟩

/-- C5: the first fetch error aborts the batch.  If after the events evs1 the
run is unaborted and item idx is in flight, and that item then reports error
e, then however many further events evs2 occur, no further item is ever
started (the start log stays what it was at the error), the final callback
has received exactly that first error (so results of late completions are
discarded, never delivered), and the run stays aborted. -/
theorem downloadLimitedItems_failfast (limit l : Nat) (res : Nat → ρ)
    (evs1 : List (LoadEv ε)) (idx : Nat) (e : ε) (evs2 : List (LoadEv ε))
    (hab : (runLoader limit l res evs1).aborted = false)
    (hidx : idx ∈ (runLoader limit l res evs1).inflight) :
    (runLoader limit l res (evs1 ++ LoadEv.err idx e :: evs2)).started
      = (runLoader limit l res evs1).started ∧
    (runLoader limit l res (evs1 ++ LoadEv.err idx e :: evs2)).cbCalls = [Except.error e] ∧
    (runLoader limit l res (evs1 ++ LoadEv.err idx e :: evs2)).aborted = true := by
  obtain ⟨h0, hfired⟩ := runLoader_inv limit l res evs1
  have hcbF : (runLoader limit l res evs1).cbCalled = false := by
    cases hcbv : (runLoader limit l res evs1).cbCalled
    · rfl
    · exfalso
      rcases h0.cb_one hcbv with ⟨_, habt⟩ | ⟨_, _, hcomp⟩
      · rw [hab] at habt
        cases habt
      · have h1 := h0.live_sum hab
        have h2 := h0.i_le
        have hlen1 : 1 ≤ (runLoader limit l res evs1).inflight.length :=
          List.length_pos.mpr (List.ne_nil_of_mem hidx)
        omega
  have hstep : loaderStep limit l res (runLoader limit l res evs1) (LoadEv.err idx e)
      = completeErr (runLoader limit l res evs1) idx e := by
    show (if idx ∈ (runLoader limit l res evs1).inflight then _ else _) = _
    rw [if_pos hidx]
  have hstep2 := hstep.trans (completeErr_eq_notcalled hcbF idx e)
  have hrun : runLoader limit l res (evs1 ++ LoadEv.err idx e :: evs2)
      = evs2.foldl (loaderStep limit l res)
          (loaderStep limit l res (runLoader limit l res evs1) (LoadEv.err idx e)) := by
    unfold runLoader
    rw [List.foldl_append]
    rfl
  have hinv2 : LoaderInv limit l res
      (loaderStep limit l res (runLoader limit l res evs1) (LoadEv.err idx e)) :=
    loaderStep_inv ⟨h0, hfired⟩ _
  have habs2 : (loaderStep limit l res (runLoader limit l res evs1)
      (LoadEv.err idx e)).aborted = true := by
    rw [hstep2]
  obtain ⟨f1, f2, f3⟩ := foldl_aborted evs2 _ hinv2 habs2
  refine ⟨?_, ?_, ?_⟩
  · rw [hrun, f1, hstep2]
  · rw [hrun, f2, hstep2]
    show (runLoader limit l res evs1).cbCalls ++ [Except.error e] = [Except.error e]
    rw [h0.cb_empty hcbF]
    rfl
  · rw [hrun]
    exact f3

/-- Witness for C5: limit 2, two items, both started by the initial flush;
item 0 errors, then item 1 still completes, but nothing further starts and
the callback keeps the first error. -/
theorem downloadLimitedItems_failfast_witness :
    (runLoader 2 2 (fun j => j) ([] ++ LoadEv.err 0 (7 : Nat) :: [LoadEv.ok 1])).started
      = (runLoader 2 2 (fun j => j) ([] : List (LoadEv Nat))).started ∧
    (runLoader 2 2 (fun j => j) ([] ++ LoadEv.err 0 (7 : Nat) :: [LoadEv.ok 1])).cbCalls
      = [Except.error 7] ∧
    (runLoader 2 2 (fun j => j) ([] ++ LoadEv.err 0 (7 : Nat) :: [LoadEv.ok 1])).aborted
      = true :=
  downloadLimitedItems_failfast 2 2 (fun j => j) [] 0 7 [LoadEv.ok 1] (by decide) (by decide)

/-- A loader state with nothing in flight is frozen: every event is a no-op. -/
theorem foldl_empty_inflight {limit l : Nat} {res : Nat → ρ} :
    ∀ (evs : List (LoadEv ε)) (s : LoaderState ρ ε), s.inflight = [] →
      evs.foldl (loaderStep limit l res) s = s := by
  intro evs
  induction evs with
  | nil =>
    intro s _
    rfl
  | cons ev evs ih =>
    intro s h
    have hstep : loaderStep limit l res s ev = s := by
      cases ev with
      | ok idx =>
        show (if idx ∈ s.inflight then completeOk limit l res s idx else s) = s
        rw [if_neg (by rw [h]; simp)]
      | err idx e =>
        show (if idx ∈ s.inflight then completeErr s idx e else s) = s
        rw [if_neg (by rw [h]; simp)]
    show evs.foldl (loaderStep limit l res) (loaderStep limit l res s ev) = s
    rw [hstep]
    exact ih s h

/-- C10: on an empty input list the initial synchronous flush immediately
invokes the callback exactly once with a null error and an empty results
array; the iterator is never invoked (the start log is empty) and nothing
that happens later changes this. -/
theorem downloadLimitedItems_empty (limit : Nat) (res : Nat → ρ) (evs : List (LoadEv ε)) :
    (startLoader (ρ := ρ) (ε := ε) limit 0).cbCalls = [Except.ok []] ∧
    (runLoader limit 0 res evs).cbCalls = [Except.ok []] ∧
    (runLoader limit 0 res evs).started = [] := by
  have hstart : startLoader (ρ := ρ) (ε := ε) limit 0 =
      { complete := 0, aborted := false, results := [], queued := 0, i := 0,
        inflight := [], started := [], cbCalled := true, cbCalls := [Except.ok []] } := rfl
  have hrun : runLoader limit 0 res evs = startLoader limit 0 :=
    foldl_empty_inflight evs _ (by rw [hstart])
  rw [hrun, hstart]
  exact ⟨rfl, rfl, rfl⟩

/-- Membership in a row of the pixel map. -/
theorem mem_findCurrentRow {pixelMap : List MosaicPixel} {r : Nat} {p : MosaicPixel}
    (h : p ∈ findCurrentRow pixelMap r) : p ∈ pixelMap ∧ p.y = r := by
  obtain ⟨hmem, hpred⟩ := List.mem_filter.mp h
  exact ⟨hmem, by simpa using hpred⟩

/-- Every row index occurring in the pixel map is bounded by maxRow. -/
theorem y_le_maxRow {pixelMap : List MosaicPixel} {p : MosaicPixel} (h : p ∈ pixelMap) :
    p.y ≤ maxRow pixelMap := by
  induction pixelMap with
  | nil => cases h
  | cons q t ih =>
    rcases List.mem_cons.mp h with hq | ht
    · subst hq
      show p.y ≤ max p.y (maxRow t)
      exact Nat.le_max_left _ _
    · exact Nat.le_trans (ih ht) (Nat.le_max_right _ _)

/-- Rows beyond maxRow are empty. -/
theorem findCurrentRow_gt (pixelMap : List MosaicPixel) (r : Nat)
    (h : maxRow pixelMap < r) : findCurrentRow pixelMap r = [] := by
  rw [show findCurrentRow pixelMap r = pixelMap.filter (fun pixel => pixel.y == r) from rfl]
  rw [List.filter_eq_nil_iff]
  intro p hp
  have hy := y_le_maxRow hp
  simp only [beq_iff_eq]
  omega

/-- A fully downloaded row has every color among the loaded tiles. -/
theorem currentRowDownloaded_mem {row : List MosaicPixel} {tiles : List String}
    (h : currentRowDownloaded row tiles = true) :
    ∀ q ∈ row, tiles.contains q.color = true := by
  intro q hq
  unfold currentRowDownloaded at h
  rw [Bool.not_eq_true'] at h
  have hnq := List.any_eq_false.mp h q hq
  cases hc : tiles.contains q.color
  · exact absurd (by rw [hc]; rfl) hnq
  · rfl

/-- Zero rows concatenate to the empty list. -/
theorem rowsFrom_zero (pixelMap : List MosaicPixel) (a : Nat) :
    rowsFrom pixelMap a 0 = [] := rfl

/-- Appending the last row to a row block. -/
theorem rowsFrom_succ (pixelMap : List MosaicPixel) (a m : Nat) :
    rowsFrom pixelMap a (m + 1) =
      rowsFrom pixelMap a m ++ findCurrentRow pixelMap (a + m) := by
  unfold rowsFrom
  rw [List.range_succ, List.flatMap_append]
  simp

/-- Splitting the first row off a row block. -/
theorem rowsFrom_cons (pixelMap : List MosaicPixel) (a m : Nat) :
    rowsFrom pixelMap a (m + 1) =
      findCurrentRow pixelMap a ++ rowsFrom pixelMap (a + 1) m := by
  unfold rowsFrom
  rw [List.range_succ_eq_map]
  rw [List.flatMap_cons]
  rw [List.flatMap_map]
  have harg : (fun k => findCurrentRow pixelMap (a + Nat.succ k)) =
      (fun k => findCurrentRow pixelMap (a + 1 + k)) := by
    funext k
    congr 1
    omega
  rw [show a + 0 = a by omega]
  congr 1
  rw [harg]

/-- Concatenating adjacent row blocks. -/
theorem rowsFrom_add (pixelMap : List MosaicPixel) (a m : Nat) :
    ∀ m' : Nat, rowsFrom pixelMap a m ++ rowsFrom pixelMap (a + m) m' =
      rowsFrom pixelMap a (m + m') := by
  intro m'
  induction m' with
  | zero => rw [rowsFrom_zero, List.append_nil, Nat.add_zero]
  | succ m' ih =>
    rw [rowsFrom_succ pixelMap (a + m) m', ← List.append_assoc, ih]
    rw [show a + m + m' = a + (m + m') by omega]
    rw [show m + (m' + 1) = (m + m') + 1 by omega, rowsFrom_succ]

/-- Behavior of renderCompleteRows' recursion with adequate fuel: starting at
row idx it advances the row index monotonically, paints exactly the rows
idx .. newIdx - 1 in row order, and paints a row only if that row is fully
downloaded with respect to the current tiles. -/
theorem renderAux_spec (pixelMap : List MosaicPixel) (tiles : List String) :
    ∀ (fuel idx : Nat), maxRow pixelMap + 1 ≤ fuel + idx →
      idx ≤ (renderAux pixelMap tiles fuel idx).2 ∧
      (renderAux pixelMap tiles fuel idx).1 =
        rowsFrom pixelMap idx ((renderAux pixelMap tiles fuel idx).2 - idx) ∧
      (∀ k, idx ≤ k → k < (renderAux pixelMap tiles fuel idx).2 →
        currentRowDownloaded (findCurrentRow pixelMap k) tiles = true) := by
  intro fuel
  induction fuel with
  | zero =>
    intro idx hfuel
    have hrowE : findCurrentRow pixelMap idx = [] := findCurrentRow_gt _ _ (by omega)
    have hnextE : findCurrentRow pixelMap (idx + 1) = [] := findCurrentRow_gt _ _ (by omega)
    have heval : renderAux pixelMap tiles 0 idx = ([], idx + 1) := by
      simp [renderAux, hrowE, hnextE, currentRowDownloaded]
    rw [heval]
    refine ⟨by omega, ?_, ?_⟩
    · show ([] : List MosaicPixel) = rowsFrom pixelMap idx (idx + 1 - idx)
      rw [show idx + 1 - idx = 1 by omega]
      rw [show (1 : Nat) = 0 + 1 from rfl, rowsFrom_succ, rowsFrom_zero]
      rw [List.nil_append, Nat.add_zero, hrowE]
    · intro k hk1 hk2
      have hk : k = idx := by omega
      subst hk
      rw [hrowE]
      rfl
  | succ fuel ih =>
    intro idx hfuel
    by_cases hdl : currentRowDownloaded (findCurrentRow pixelMap idx) tiles = true
    · cases hne : (findCurrentRow pixelMap (idx + 1)).isEmpty with
      | true =>
        have heval : renderAux pixelMap tiles (fuel + 1) idx =
            (findCurrentRow pixelMap idx, idx + 1) := by
          simp [renderAux, hdl, hne]
        rw [heval]
        refine ⟨by omega, ?_, ?_⟩
        · show findCurrentRow pixelMap idx = rowsFrom pixelMap idx (idx + 1 - idx)
          rw [show idx + 1 - idx = 1 by omega]
          rw [show (1 : Nat) = 0 + 1 from rfl, rowsFrom_succ, rowsFrom_zero]
          rw [List.nil_append, Nat.add_zero]
        · intro k hk1 hk2
          have hk : k = idx := by omega
          subst hk
          exact hdl
      | false =>
        have heval : renderAux pixelMap tiles (fuel + 1) idx =
            (findCurrentRow pixelMap idx ++ (renderAux pixelMap tiles fuel (idx + 1)).1,
              (renderAux pixelMap tiles fuel (idx + 1)).2) := by
          simp [renderAux, hdl, hne]
        obtain ⟨ih1, ih2, ih3⟩ := ih (idx + 1) (by omega)
        rw [heval]
        refine ⟨by omega, ?_, ?_⟩
        · show findCurrentRow pixelMap idx ++ (renderAux pixelMap tiles fuel (idx + 1)).1 =
            rowsFrom pixelMap idx ((renderAux pixelMap tiles fuel (idx + 1)).2 - idx)
          rw [ih2]
          rw [show (renderAux pixelMap tiles fuel (idx + 1)).2 - idx =
            ((renderAux pixelMap tiles fuel (idx + 1)).2 - (idx + 1)) + 1 by omega]
          rw [rowsFrom_cons]
        · intro k hk1 hk2
          by_cases hki : k = idx
          · subst hki
            exact hdl
          · exact ih3 k (by omega) hk2
    · have heval : renderAux pixelMap tiles (fuel + 1) idx = ([], idx) := by
        simp [renderAux, hdl]
      rw [heval]
      refine ⟨Nat.le_refl idx, ?_, ?_⟩
      · rw [Nat.sub_self, rowsFrom_zero]
      · intro k hk1 hk2
        omega

/-- Extending the block of painted rows below the current index. -/
theorem paintedUpTo_extend (pixelMap : List MosaicPixel) (a m : Nat) (ha : 1 ≤ a) :
    paintedUpTo pixelMap (a - 1) ++ rowsFrom pixelMap a m =
      paintedUpTo pixelMap (a - 1 + m) := by
  unfold paintedUpTo
  have h := rowsFrom_add pixelMap 1 (a - 1) m
  rw [show 1 + (a - 1) = a by omega] at h
  exact h

/-- One render invocation (with the given loaded-tiles list) preserves the
render invariant. -/
theorem renderInv_extend (pixelMap : List MosaicPixel) (tl : List String)
    (s : RenderState) (h : RenderInv pixelMap s) :
    RenderInv pixelMap
      { tiles := tl, rowIdx := (renderCompleteRows pixelMap tl s.rowIdx).2,
        history := s.history ++
          (renderCompleteRows pixelMap tl s.rowIdx).1.map (fun p => (p, tl)) } := by
  obtain ⟨h1, h2, h3⟩ := h
  have hfuel : maxRow pixelMap + 1 ≤ (maxRow pixelMap + 1 - s.rowIdx) + s.rowIdx := by omega
  obtain ⟨hspec1, hspec2, hspec3⟩ :=
    renderAux_spec pixelMap tl (maxRow pixelMap + 1 - s.rowIdx) s.rowIdx hfuel
  refine ⟨?_, ?_, ?_⟩
  · show 1 ≤ (renderCompleteRows pixelMap tl s.rowIdx).2
    unfold renderCompleteRows
    omega
  · show (s.history ++
        (renderCompleteRows pixelMap tl s.rowIdx).1.map (fun p => (p, tl))).map Prod.fst =
      paintedUpTo pixelMap ((renderCompleteRows pixelMap tl s.rowIdx).2 - 1)
    unfold renderCompleteRows
    rw [List.map_append, h2, List.map_map]
    rw [show (Prod.fst ∘ fun p : MosaicPixel => (p, tl)) = id from rfl, List.map_id]
    rw [hspec2]
    have hext := paintedUpTo_extend pixelMap s.rowIdx
      ((renderAux pixelMap tl (maxRow pixelMap + 1 - s.rowIdx) s.rowIdx).2 - s.rowIdx) h1
    rw [show s.rowIdx - 1 + ((renderAux pixelMap tl (maxRow pixelMap + 1 - s.rowIdx) s.rowIdx).2 - s.rowIdx) =
      (renderAux pixelMap tl (maxRow pixelMap + 1 - s.rowIdx) s.rowIdx).2 - 1 by omega] at hext
    exact hext
  · intro pr hpr
    rcases List.mem_append.mp hpr with hold | hnew
    · exact h3 pr hold
    · obtain ⟨p, hp, hpr_eq⟩ := List.mem_map.mp hnew
      subst hpr_eq
      intro q hq
      have hp' : p ∈ rowsFrom pixelMap s.rowIdx
          ((renderAux pixelMap tl (maxRow pixelMap + 1 - s.rowIdx) s.rowIdx).2 - s.rowIdx) := by
        rw [← hspec2]
        exact hp
      unfold rowsFrom at hp'
      obtain ⟨k, hkmem, hpk⟩ := List.mem_flatMap.mp hp'
      have hky := (mem_findCurrentRow hpk).2
      have hkrange := List.mem_range.mp hkmem
      have hdl := hspec3 (s.rowIdx + k) (by omega) (by omega)
      exact currentRowDownloaded_mem hdl q (by rw [show (p, tl).1.y = p.y from rfl, hky] at hq; exact hq)

/-- One render event preserves the render invariant. -/
theorem renderStep_inv (pixelMap : List MosaicPixel) (s : RenderState) (ev : Option String)
    (h : RenderInv pixelMap s) : RenderInv pixelMap (renderStep pixelMap s ev) := by
  cases ev with
  | none => exact renderInv_extend pixelMap s.tiles s h
  | some c => exact renderInv_extend pixelMap (s.tiles ++ [c]) s h

/-- The render invariant holds along any event list. -/
theorem foldl_renderStep_inv (pixelMap : List MosaicPixel) :
    ∀ (evs : List (Option String)) (s : RenderState), RenderInv pixelMap s →
      RenderInv pixelMap (evs.foldl (renderStep pixelMap) s)
  | [], _, h => h
  | ev :: evs, s, h => foldl_renderStep_inv pixelMap evs _ (renderStep_inv pixelMap s ev h)

/-- Every reachable render state satisfies the render invariant. -/
theorem renderRun_inv (pixelMap : List MosaicPixel) (evs : List (Option String)) :
    RenderInv pixelMap (renderRun pixelMap evs) := by
  refine foldl_renderStep_inv pixelMap evs _ ⟨Nat.le_refl 1, rfl, ?_⟩
  intro pr hpr
  cases hpr

/-- Row indices of already painted entries lie in 1..k. -/
theorem mem_paintedUpTo_y_le {pixelMap : List MosaicPixel} {k : Nat} {p : MosaicPixel}
    (h : p ∈ paintedUpTo pixelMap k) : 1 ≤ p.y ∧ p.y ≤ k := by
  unfold paintedUpTo rowsFrom at h
  obtain ⟨j, hj, hpj⟩ := List.mem_flatMap.mp h
  have h1 := (mem_findCurrentRow hpj).2
  have h2 := List.mem_range.mp hj
  omega

/-- The painted block is sorted by row index. -/
theorem paintedUpTo_pairwise (pixelMap : List MosaicPixel) (k : Nat) :
    ((paintedUpTo pixelMap k).map (fun p => p.y)).Pairwise (fun a b => a ≤ b) := by
  induction k with
  | zero => exact List.Pairwise.nil
  | succ k ih =>
    have hsucc : paintedUpTo pixelMap (k + 1) =
        paintedUpTo pixelMap k ++ findCurrentRow pixelMap (1 + k) := rowsFrom_succ _ _ _
    rw [hsucc, List.map_append, List.pairwise_append]
    refine ⟨ih, ?_, ?_⟩
    · apply List.pairwise_of_forall_mem_list
      intro a ha b hb
      obtain ⟨p, hp, hpa⟩ := List.mem_map.mp ha
      obtain ⟨q, hq, hqb⟩ := List.mem_map.mp hb
      rw [← hpa, ← hqb, (mem_findCurrentRow hp).2, (mem_findCurrentRow hq).2]
    · intro a ha b hb
      obtain ⟨p, hp, hpa⟩ := List.mem_map.mp ha
      obtain ⟨q, hq, hqb⟩ := List.mem_map.mp hb
      have hya := (mem_paintedUpTo_y_le hp).2
      rw [← hpa, ← hqb, (mem_findCurrentRow hq).2]
      omega

/-- C6: for every pixel map and every order in which tile assets arrive (and
however often the re-check runs), the paint history is in non-decreasing row
order; each painted entry's whole row was loaded at the moment it was
painted; and the history is exactly the concatenation of the complete rows
1 .. currentRowIndex - 1 in row order, so no entry of a later row is painted
before every earlier row is complete. -/
theorem renderRows_ordered (pixelMap : List MosaicPixel) (evs : List (Option String)) :
    (((renderRun pixelMap evs).history.map Prod.fst).map (fun p => p.y)).Pairwise
      (fun a b => a ≤ b) ∧
    (renderRun pixelMap evs).history.map Prod.fst =
      paintedUpTo pixelMap ((renderRun pixelMap evs).rowIdx - 1) ∧
    ∀ pr ∈ (renderRun pixelMap evs).history, ∀ q ∈ findCurrentRow pixelMap pr.1.y,
      pr.2.contains q.color = true := by
  obtain ⟨h1, h2, h3⟩ := renderRun_inv pixelMap evs
  exact ⟨by rw [h2]; exact paintedUpTo_pairwise pixelMap _, h2, h3⟩

/-- Witness for C9 on a 2 x 2 grid. -/
theorem getPixelMap_complete_witness :
    (getPixelMap 2 ["aa", "bb", "cc", "dd"]).length = 2 * 2 ∧
    (∀ j (hj : j < (["aa", "bb", "cc", "dd"] : List String).length),
      (getPixelMap 2 ["aa", "bb", "cc", "dd"])[j]? =
        some { color := (["aa", "bb", "cc", "dd"] : List String)[j],
               x := j % 2 + 1, y := j / 2 + 1 }) ∧
    (∀ a b, 1 ≤ a → a ≤ 2 → 1 ≤ b → b ≤ 2 →
      (getPixelMap 2 ["aa", "bb", "cc", "dd"]).countP (fun p => p.x == a && p.y == b) = 1) :=
  getPixelMap_complete 2 2 ["aa", "bb", "cc", "dd"] (by decide) (by decide) (by decide)

end MosaicSpec
